import Mathlib

set_option maxRecDepth 8000
set_option linter.unusedVariables false

/-! Verification development for the naver-blog-md block extraction and
rendering pipeline.  Python strings are embedded as `List Char`; dictionaries
as ordered association lists; in-place mutation as explicit state passing;
network and file effects as oracle functions and returned effect records.
Python truthiness and exception behaviour are modelled explicitly
(`Except`, `Option`). -/

/-- Characters of a string literal, for readable embeddings of Python string
constants. -/
def cs (s : String) : List Char := s.toList

/-- Whitespace as recognized by Python str.strip with no arguments
(ASCII range, which is all the source ever feeds it). -/
def isPySpace (c : Char) : Bool :=
  c == ' ' || c == '\t' || c == '\n' || c == '\r' || c == '\x0b' || c == '\x0c'

/-- Leading-whitespace removal, the left half of Python str.strip. -/
def pyStripLeft (l : List Char) : List Char := l.dropWhile isPySpace

/-- Trailing-whitespace removal, the right half of Python str.strip. -/
def pyStripRight (l : List Char) : List Char := (l.reverse.dropWhile isPySpace).reverse

/-- Python str.strip with no arguments: removes leading and trailing
whitespace. -/
def pyStrip (l : List Char) : List Char := pyStripRight (pyStripLeft l)

/-- Python s.split with separator "?" followed by taking element 0: the
prefix of the string before the first question mark (the whole string when
none occurs). -/
def splitQueryHead (l : List Char) : List Char := l.takeWhile (fun c => c != '?')

/-- Fuelled core of Python str.replace: scan left to right, replace each
non-overlapping occurrence of pat by repl, never rescanning the inserted
replacement.  Fuel at least the length of the scanned list makes the fuel
arm unreachable; the source only ever calls replace with a non-empty
pattern. -/
def replaceFuel (pat repl : List Char) : Nat → List Char → List Char
  | _, [] => []
  | 0, s => s
  | fuel+1, c :: rest =>
    if pat <+: (c :: rest) then
      repl ++ replaceFuel pat repl fuel ((c :: rest).drop pat.length)
    else
      c :: replaceFuel pat repl fuel rest

/-- Python s.replace(pat, repl) for non-empty pat. -/
def pyReplace (s pat repl : List Char) : List Char := replaceFuel pat repl s.length s

namespace Components

/-- Embeds blog/components.py _original_image_url: strip the query string and
rewrite the staging path segment to the published one.  Note: no video-CDN
host rewrite here, unlike the markdown/image.py function of the same name. -/
def original_image_url (url : List Char) : List Char :=
  pyReplace (splitQueryHead url) (cs "postfiles") (cs "blogfiles")

end Components

namespace Markdown

/-- Embeds markdown/image.py _original_image_url, the CDN-rewrite image
strategy: strip the query string, rewrite the staging path segment, and
rewrite the video-CDN host prefix to the image-CDN host prefix. -/
def original_image_url (src : List Char) : List Char :=
  pyReplace
    (pyReplace (splitQueryHead src) (cs "postfiles") (cs "blogfiles"))
    (cs "https://mblogvideo-phinf.pstatic.net/")
    (cs "https://blogfiles.pstatic.net/")

/-- Embeds markdown/image.py _identity, the pass-through image strategy. -/
def identity (src : List Char) : List Char := src

end Markdown

/-- Embeds markdown/models.py ImageBlock: a single image reference. -/
structure ImageData where
  src : List Char
  alt : List Char
deriving DecidableEq

/-- Embeds markdown/models.py Block, the content IR: SectionTitleBlock,
ParagraphBlock, ImageBlock, ImageGroupBlock. -/
inductive Block where
  | sectionTitle (text : List Char)
  | paragraph (text : List Char)
  | image (data : ImageData)
  | imageGroup (images : List ImageData)
deriving DecidableEq

/-- Python str.join with a separator, as used for image groups. -/
def joinSep (sep : List Char) : List (List Char) → List Char
  | [] => []
  | x :: xs => x ++ xs.flatMap (fun y => sep ++ y)

/-- Front-matter values: a plain string, or a one-level nested string map
(the preview-image entry).  Models the dictionaries the metadata collaborator
hands to the renderer. -/
inductive FMVal where
  | str (s : List Char)
  | nested (m : List (List Char × List Char))
deriving DecidableEq

/-- A Python dict embedded as an insertion-ordered association list with
unique keys. -/
abbrev FrontMatter := List (List Char × FMVal)

/-- Python dict lookup: value at the key, none when absent. -/
def dictGet {α : Type} (k : List Char) : List (List Char × α) → Option α
  | [] => none
  | (k2, v) :: rest => if k2 = k then some v else dictGet k rest

/-- Python dict assignment: replace the value at an existing key in place
(keeping its position), append when the key is new. -/
def dictSet {α : Type} (k : List Char) (v : α) : List (List Char × α) → List (List Char × α)
  | [] => [(k, v)]
  | (k2, v2) :: rest => if k2 = k then (k, v) :: rest else (k2, v2) :: dictSet k v rest

/-- Code-point lexicographic order on keys, as Python string sorting. -/
def keyLe : List Char → List Char → Bool
  | [], _ => true
  | _ :: _, [] => false
  | a :: as, b :: bs => a.toNat < b.toNat || (a = b && keyLe as bs)

/-- Insertion step of a stable sort by key. -/
def insertSorted {α : Type} (x : List Char × α) : List (List Char × α) → List (List Char × α)
  | [] => [x]
  | y :: ys => if keyLe x.1 y.1 then x :: y :: ys else y :: insertSorted x ys

/-- Stable sort by key, for the sorted key order of yaml.safe_dump. -/
def sortByKey {α : Type} : List (List Char × α) → List (List Char × α)
  | [] => []
  | x :: xs => insertSorted x (sortByKey xs)

/-- One scalar line of a YAML dump. -/
def yamlScalarLine (indent k v : List Char) : List Char :=
  indent ++ k ++ cs ": " ++ v ++ [ '\n' ]

/-- Modelled from the spec: yaml.safe_dump of the external PyYAML
collaborator, restricted to the shapes the front matter takes here (plain
scalar strings and one nested string map), with its default sorted key
order and block style. -/
def yaml_safe_dump (fm : FrontMatter) : List Char :=
  (sortByKey fm).flatMap (fun kv =>
    match kv.2 with
    | .str v => yamlScalarLine [] kv.1 v
    | .nested m =>
      kv.1 ++ [ ':' , '\n' ] ++
        (sortByKey m).flatMap (fun kv2 => yamlScalarLine (cs "  ") kv2.1 kv2.2))

namespace Markdown

/-- Embeds multiprocess/pool.py use_map: Pool(processes).map applies the
function to every element and reassembles the results in input order, so it
denotes an order-preserving map whatever the worker count. -/
def use_map {α β : Type} (processes : Nat) (f : α → β) (l : List α) : List β :=
  l.map f

/-- Embeds markdown/render.py _front_matter_as_yaml.  The Python function
mutates the image url entry of the caller-supplied dict in place before
serializing; the mutation is modelled by returning the updated mapping
alongside the header text.  proc is the image processor chosen by
_use_image_processor_with_fallback. -/
def front_matter_as_yaml (proc : List Char → List Char) (front_matter : FrontMatter) :
    FrontMatter × List Char :=
  let fm :=
    match dictGet (cs "image") front_matter with
    | some (.nested m) =>
      match dictGet (cs "url") m with
      | some u => dictSet (cs "image") (.nested (dictSet (cs "url") (proc u) m)) front_matter
      | none => front_matter
    | _ => front_matter
  (fm, cs "---\n" ++ yaml_safe_dump fm ++ cs "---\n\n")

/-- Embeds markdown/render.py _block_as_markdown.  proc is the image
processor; the match arms are in source order. -/
def block_as_markdown (proc : List Char → List Char) : Block → List Char
  | .sectionTitle text => cs "## " ++ pyStrip text ++ cs "\n\n"
  | .paragraph text =>
    if text = [] ∨ text = [ '\n' ] then [] else pyStrip text ++ cs "\n\n"
  | .image i =>
    if i.src = [] then [] else cs "![" ++ i.alt ++ cs "](" ++ proc i.src ++ cs ")\n\n"
  | .imageGroup images =>
    if images = [] then []
    else
      joinSep (cs " ")
        (images.map (fun i => cs "![" ++ i.alt ++ cs "](" ++ proc i.src ++ cs ")")) ++
        cs "\n\n"

/-- Embeds markdown/render.py blocks_as_markdown: resolve the header from the
front matter when the result accumulator is empty, render every block through
the worker map, then strip the concatenation and append one newline. -/
def blocks_as_markdown (blocks : List Block) (front_matter : Option FrontMatter)
    (result : List Char) (num_workers : Nat) (proc : List Char → List Char) : List Char :=
  let result :=
    match front_matter with
    | some fm => if result = [] then (front_matter_as_yaml proc fm).2 else result
    | none => result
  let rendered := use_map num_workers (block_as_markdown proc) blocks
  pyStrip (result ++ rendered.flatten) ++ [ '\n' ]

end Markdown

/-- Value of a hexadecimal digit character, none otherwise. -/
def hexDigit (c : Char) : Option Nat :=
  let n := c.toNat
  if 48 ≤ n ∧ n ≤ 57 then some (n - 48)
  else if 65 ≤ n ∧ n ≤ 70 then some (n - 55)
  else if 97 ≤ n ∧ n ≤ 102 then some (n - 87)
  else none

/-- Embeds urllib.parse.unquote_plus of the standard library collaborator,
for the single-byte sequences the image filenames use: a plus sign becomes a
space and a valid percent escape becomes the escaped byte; invalid escapes
stay literal. -/
def unquote_plus : List Char → List Char
  | [] => []
  | '+' :: rest => ' ' :: unquote_plus rest
  | '%' :: a :: b :: rest =>
    match hexDigit a, hexDigit b with
    | some x, some y => Char.ofNat (16 * x + y) :: unquote_plus rest
    | _, _ => '%' :: unquote_plus (a :: b :: rest)
  | c :: rest => c :: unquote_plus rest

/-- Follows the words of claim C7: pure percent-decoding, with no plus-sign
conversion.  Kept separate from unquote_plus to compare the claim against
the code. -/
def percent_decode : List Char → List Char
  | [] => []
  | '%' :: a :: b :: rest =>
    match hexDigit a, hexDigit b with
    | some x, some y => Char.ofNat (16 * x + y) :: percent_decode rest
    | _, _ => '%' :: percent_decode (a :: b :: rest)
  | c :: rest => c :: percent_decode rest

/-- Python url.split with separator "/" followed by taking the last element:
the segment after the last slash, or the whole string when none occurs. -/
def last_path_segment (url : List Char) : List Char :=
  (url.reverse.takeWhile (fun c => c != '/')).reverse

/-- Failures of the fetch-and-localize strategy: the is_dir assertion, or
requests raise_for_status on a non-success response (the DownloadFailure of
the spec taxonomy). -/
inductive FetchError where
  | assertionFailed
  | downloadFailure
deriving DecidableEq

/-- The one file write the fetch strategy performs: destination path and the
bytes written. -/
structure FetchEffect where
  path : List Char
  contents : List Nat
deriving DecidableEq

/-- Result of a successful fetch-and-localize call: its file write and the
returned src string. -/
structure FetchOutcome where
  effect : FetchEffect
  result : List Char
deriving DecidableEq

namespace Markdown

/-- Embeds markdown/image.py _fetch_image_processor.  The network is an
oracle from URL to optional body bytes (none denotes a non-success response,
on which raise_for_status throws); the file write is returned as an effect
record; the is_dir assertion is the boolean argument. -/
def fetch_image_processor (src assets_directory image_src_prefix : List Char)
    (assets_directory_is_dir : Bool) (http_get : List Char → Option (List Nat)) :
    Except FetchError FetchOutcome :=
  if assets_directory_is_dir = false then .error .assertionFailed
  else
    let url := original_image_url src
    match http_get url with
    | none => .error .downloadFailure
    | some content =>
      let filename := unquote_plus (last_path_segment url)
      .ok ⟨⟨assets_directory ++ [ '/' ] ++ filename, content⟩, image_src_prefix ++ filename⟩

end Markdown

/-- A leaf markup element as the handlers consume it: its src attribute and
its get_text result.  The CSS-selector queries themselves belong to the
excluded bs4 collaborator, so a Tag carries their results. -/
structure Elem where
  srcAttr : List Char
  textContent : List Char
deriving DecidableEq

/-- A top-level markup component: its class token list and the results of the
child queries the handlers in blog/components.py perform on it. -/
structure Tag where
  classes : List (List Char)
  imgs : List Elem
  videos : List Elem
  captionTag : Option Elem
  textParagraphTags : List Elem
  textContent : List Char
deriving DecidableEq

/-- Parse failures: the ValueError on an unknown discriminator (the
UnrecognizedComponent of the spec taxonomy), the assertion in
image_component (StructuralMismatch), and the IndexError when a component
lacks a second class token. -/
inductive ParseError where
  | unrecognizedComponent (discriminator : List Char)
  | structuralMismatch
  | missingClassIndex
deriving DecidableEq

namespace Components

/-- Embeds blog/components.py _text_from_tag: get_text(strip=True) followed
by str.strip; the argument is the get_text result carried by the element. -/
def text_from_tag (textContent : List Char) : List Char := pyStrip textContent

/-- Caption lookup shared by the image handlers: caption text when a caption
element exists, empty string otherwise. -/
def caption_alt (captionTag : Option Elem) : List Char :=
  match captionTag with
  | some cap => text_from_tag cap.textContent
  | none => []

/-- Embeds blog/components.py section_title_component. -/
def section_title_component (component : Tag) : Block :=
  .sectionTitle (text_from_tag component.textContent)

/-- Embeds blog/components.py text_component: one Paragraph per
se-text-paragraph sub-element. -/
def text_component (component : Tag) : List Block :=
  component.textParagraphTags.map (fun t => .paragraph (text_from_tag t.textContent))

/-- Embeds blog/components.py image_group_component: every child img, sharing
one caption. -/
def image_group_component (component : Tag) : Block :=
  .imageGroup (component.imgs.map (fun img =>
    ⟨original_image_url img.srcAttr, caption_alt component.captionTag⟩))

/-- Embeds blog/components.py image_component: select_one yields the first
matching child, and exactly one of img and video must be present, else the
assertion fails. -/
def image_component (component : Tag) : Except ParseError Block :=
  match component.imgs.head?, component.videos.head? with
  | some img, none =>
    .ok (.image ⟨original_image_url img.srcAttr, caption_alt component.captionTag⟩)
  | none, some video =>
    .ok (.image ⟨original_image_url video.srcAttr, caption_alt component.captionTag⟩)
  | _, _ => .error .structuralMismatch

end Components

namespace Hooks

/-- Blocks contributed by one component in blog/hooks.py as_blocks: dispatch
on the second class token, in source arm order; se-placesMap and se-oglink
contribute nothing; an unknown discriminator raises. -/
def component_blocks (component : Tag) : Except ParseError (List Block) :=
  match component.classes.drop 1 with
  | [] => .error .missingClassIndex
  | discriminator :: _ =>
    if discriminator = cs "se-sectionTitle" then
      .ok [Components.section_title_component component]
    else if discriminator = cs "se-image" then
      (fun b => [b]) <$> Components.image_component component
    else if discriminator = cs "se-imageGroup" then
      .ok [Components.image_group_component component]
    else if discriminator = cs "se-placesMap" then
      .ok []
    else if discriminator = cs "se-text" then
      .ok (Components.text_component component)
    else if discriminator = cs "se-oglink" then
      .ok []
    else .error (.unrecognizedComponent discriminator)

/-- Embeds blog/hooks.py as_blocks: the lazy generator consumed to the end,
yielding each component's blocks in order and aborting on the first raise. -/
def as_blocks : List Tag → Except ParseError (List Block)
  | [] => .ok []
  | component :: rest => do
    let bs ← component_blocks component
    let tl ← as_blocks rest
    pure (bs ++ tl)

/-- The runtime error of _first_image_of_blocks: indexing images[0] of an
empty list. -/
inductive RunError where
  | indexError
deriving DecidableEq

/-- Embeds blog/hooks.py _first_image_of_blocks: recurse past non-image
blocks; an ImageBlock is returned as is; an ImageGroupBlock yields its first
image, raising IndexError when it has none; an exhausted sequence yields
none. -/
def first_image_of_blocks : List Block → Except RunError (Option ImageData)
  | [] => .ok none
  | b :: rest =>
    match b with
    | .image d => .ok (some ⟨d.src, d.alt⟩)
    | .imageGroup [] => .error .indexError
    | .imageGroup (i :: _) => .ok (some ⟨i.src, i.alt⟩)
    | _ => first_image_of_blocks rest

end Hooks

/-- Whether a block is an Image or ImageGroup, the kinds preview selection
stops at. -/
def isImageBearing : Block → Bool
  | .image _ => true
  | .imageGroup _ => true
  | _ => false

/-- One call of the wrapper returned by fp/lazy_val.py lazy_val, with the
wrapped computation modelled by its return value funcResult (none embeds
Python None).  The state is the closed-over variable value; the call returns
the result, the new state, and whether the computation was invoked. -/
def lazy_call {α : Type} (funcResult : Option α) (value : Option α) :
    Option α × Option α × Bool :=
  match value with
  | none => (funcResult, funcResult, true)
  | some v => (some v, some v, false)

/-- A sequence of n wrapper calls starting from the initial None state:
final state, total number of invocations of the computation, and the list of
returned values in call order. -/
def lazy_trace {α : Type} (funcResult : Option α) : Nat → Option α × Nat × List (Option α)
  | 0 => (none, 0, [])
  | n+1 =>
    let (st, cnt, rs) := lazy_trace funcResult n
    let (r, st2, inv) := lazy_call funcResult st
    (st2, cnt + (if inv then 1 else 0), rs ++ [r])

/-- Follows the words of claim C6: concatenation of the header (if any) and
the per-block fragments, trailing whitespace removed, one trailing newline
appended — and leading whitespace untouched.  Kept separate from
blocks_as_markdown to compare the claim against the code. -/
def spec_render_trailing_only (blocks : List Block) (front_matter : Option FrontMatter)
    (num_workers : Nat) (proc : List Char → List Char) : List Char :=
  let header :=
    match front_matter with
    | some fm => (Markdown.front_matter_as_yaml proc fm).2
    | none => []
  pyStripRight
      (header ++ (Markdown.use_map num_workers (Markdown.block_as_markdown proc) blocks).flatten)
    ++ [ '\n' ]

/-- Decidable equality of Except values, so that concrete parser and fetch
outcomes can be checked by decide. -/
instance {ε α : Type} [DecidableEq ε] [DecidableEq α] : DecidableEq (Except ε α) := fun x y =>
  match x, y with
  | .error e, .error f =>
    if h : e = f then .isTrue (by rw [h]) else .isFalse (fun hc => h (Except.error.inj hc))
  | .error e, .ok b => .isFalse (fun hc => Except.noConfusion hc)
  | .ok a, .error f => .isFalse (fun hc => Except.noConfusion hc)
  | .ok a, .ok b =>
    if h : a = b then .isTrue (by rw [h]) else .isFalse (fun hc => h (Except.ok.inj hc))

/-- The amended form of claim C6: the same concatenation, stripped of
trailing and also of leading whitespace before the single newline is
appended. -/
def spec_render_strip_both (blocks : List Block) (front_matter : Option FrontMatter)
    (num_workers : Nat) (proc : List Char → List Char) : List Char :=
  let header :=
    match front_matter with
    | some fm => (Markdown.front_matter_as_yaml proc fm).2
    | none => []
  pyStripLeft (pyStripRight
      (header ++ (Markdown.use_map num_workers (Markdown.block_as_markdown proc) blocks).flatten))
    ++ [ '\n' ]

theorem prefixNilEq {q : List Char} (h : q <+: ([] : List Char)) : q = [] := by
  obtain ⟨t, ht⟩ := h
  simpa using List.append_eq_nil.mp ht |>.1

theorem isInfixNilEq {q : List Char} (h : q <:+: ([] : List Char)) : q = [] := by
  obtain ⟨u, v, huv⟩ := h
  simp at huv
  exact huv.2.1

theorem prefixIsInfix {q l : List Char} (h : q <+: l) : q <:+: l := by
  obtain ⟨t, ht⟩ := h
  exact ⟨[], t, by simpa using ht⟩

theorem suffixIsInfix {q l : List Char} (h : q <:+ l) : q <:+: l := by
  obtain ⟨s, hs⟩ := h
  exact ⟨s, [], by simpa using hs⟩

theorem isInfixTrans {a b c : List Char} (h1 : a <:+: b) (h2 : b <:+: c) : a <:+: c := by
  obtain ⟨u, v, hb⟩ := h1
  obtain ⟨w, x, hc⟩ := h2
  exact ⟨w ++ u, v ++ x, by rw [← hc, ← hb]; simp⟩

theorem isInfixConsOf {q l : List Char} (c : Char) (h : q <:+: l) : q <:+: (c :: l) := by
  obtain ⟨u, v, huv⟩ := h
  exact ⟨c :: u, v, by simp [huv]⟩

theorem isSuffixConsOf {q l : List Char} (c : Char) (h : q <:+ l) : q <:+ (c :: l) := by
  obtain ⟨u, hu⟩ := h
  exact ⟨c :: u, by simp [hu]⟩

theorem dropIsSuffix (l : List Char) (n : Nat) : l.drop n <:+ l :=
  ⟨l.take n, List.take_append_drop n l⟩

theorem prefixAppendCases {q l r : List Char} (h : q <+: (l ++ r)) :
    q <+: l ∨ ∃ x, q = l ++ x ∧ x <+: r := by
  induction l generalizing q with
  | nil => exact Or.inr ⟨q, by simp, by simpa using h⟩
  | cons c l ih =>
    cases q with
    | nil => exact Or.inl ⟨c :: l, rfl⟩
    | cons d q =>
      obtain ⟨t, ht⟩ := h
      simp only [List.cons_append] at ht
      obtain ⟨h1, h2⟩ := List.cons.inj ht
      rcases ih ⟨t, h2⟩ with hp | ⟨x, hx1, hx2⟩
      · exact Or.inl (h1 ▸ (List.prefix_cons_inj c |>.mpr hp |> fun hh => by
          subst h1; exact hh))
      · subst h1
        exact Or.inr ⟨x, by simp [hx1], hx2⟩

theorem isInfixConsCases {q l : List Char} {c : Char} (h : q <:+: (c :: l)) :
    q <+: (c :: l) ∨ q <:+: l := by
  obtain ⟨u, v, huv⟩ := h
  cases u with
  | nil => exact Or.inl ⟨v, by simpa using huv⟩
  | cons d u =>
    simp only [List.cons_append] at huv
    obtain ⟨h1, h2⟩ := List.cons.inj huv
    exact Or.inr ⟨u, v, h2⟩

theorem isInfixAppendCases {q l r : List Char} (h : q <:+: (l ++ r)) :
    q <:+: l ∨ q <:+: r ∨
      ∃ x y, q = x ++ y ∧ x ≠ [] ∧ y ≠ [] ∧ x <:+ l ∧ y <+: r := by
  induction l generalizing q with
  | nil => exact Or.inr (Or.inl (by simpa using h))
  | cons c l ih =>
    rcases isInfixConsCases (show q <:+: c :: (l ++ r) by simpa using h) with hp | hi
    · rcases prefixAppendCases (show q <+: (c :: l) ++ r by simpa using hp) with
        hp1 | ⟨x, hqx, hxr⟩
      · exact Or.inl (prefixIsInfix hp1)
      · by_cases hx : x = []
        · subst hx
          exact Or.inl (by rw [hqx]; simp)
        · exact Or.inr (Or.inr ⟨c :: l, x, hqx, by simp, hx, ⟨[], by simp⟩, hxr⟩)
    · rcases ih hi with h1 | h2 | ⟨x, y, hq, hx, hy, hxl, hyr⟩
      · exact Or.inl (isInfixConsOf c h1)
      · exact Or.inr (Or.inl h2)
      · exact Or.inr (Or.inr ⟨x, y, hq, hx, hy, isSuffixConsOf c hxl, hyr⟩)

theorem suffixAllOfChecks {repl pat : List Char}
    (h : ∀ i, i < repl.length → ¬ repl.drop i <+: pat) :
    ∀ x, x <:+ repl → x <+: pat → x = [] := by
  intro x hs hp
  by_contra hne
  obtain ⟨t, ht⟩ := hs
  have hx : repl.drop t.length = x := by
    rw [← ht]
    simp
  have hlen : t.length < repl.length := by
    rw [← ht]
    simp
    cases x with
    | nil => exact absurd rfl hne
    | cons a as => simp
  exact h t.length hlen (hx ▸ hp)

theorem prefixAllOfChecks {repl pat : List Char}
    (h : ∀ i, i < repl.length → ¬ repl.take (i+1) <:+ pat) :
    ∀ y, y <+: repl → y <:+ pat → y = [] := by
  intro y hp hs
  by_contra hne
  obtain ⟨t, ht⟩ := hp
  have hy : repl.take y.length = y := by
    rw [← ht]
    simp
  have hlen1 : 1 ≤ y.length := by
    cases y with
    | nil => exact absurd rfl hne
    | cons a as => simp
  have hlen : y.length - 1 < repl.length := by
    rw [← ht]
    simp
    omega
  have hcheck := h (y.length - 1) hlen
  rw [Nat.sub_add_cancel hlen1, hy] at hcheck
  exact hcheck hs

theorem replaceScanSafe (pat repl : List Char) (hpat : pat ≠ [])
    (hA : ¬ pat <:+: repl)
    (hB : ∀ x, x <:+ repl → x <+: pat → x = [])
    (hC : ∀ y, y <+: repl → y <:+ pat → y = [])
    (hF : ¬ repl <:+: pat) :
    ∀ fuel s, s.length ≤ fuel →
      (¬ pat <:+: replaceFuel pat repl fuel s) ∧
      (∀ x y, pat = x ++ y → x ≠ [] → y ≠ [] → ¬ pat <+: (x ++ s) →
        ¬ y <+: replaceFuel pat repl fuel s) := by
  intro fuel
  induction fuel with
  | zero =>
    intro s hs
    have hsnil : s = [] := List.length_eq_zero.mp (Nat.le_zero.mp hs)
    subst hsnil
    constructor
    · intro hinf
      exact hpat (isInfixNilEq (by simpa [replaceFuel] using hinf))
    · intro x y hxy hx hy hpre hypre
      exact hy (prefixNilEq (by simpa [replaceFuel] using hypre))
  | succ fuel ih =>
    intro s hs
    cases s with
    | nil =>
      constructor
      · intro hinf
        exact hpat (isInfixNilEq (by simpa [replaceFuel] using hinf))
      · intro x y hxy hx hy hpre hypre
        exact hy (prefixNilEq (by simpa [replaceFuel] using hypre))
    | cons c rest =>
      have hs2 : rest.length ≤ fuel := by simpa using hs
      by_cases hm : pat <+: (c :: rest)
      · have hG : replaceFuel pat repl (fuel+1) (c :: rest)
            = repl ++ replaceFuel pat repl fuel ((c :: rest).drop pat.length) := by
          simp [replaceFuel, hm]
        have hlen : ((c :: rest).drop pat.length).length ≤ fuel := by
          cases pat with
          | nil => exact absurd rfl hpat
          | cons p ps =>
            simp only [List.length_drop, List.length_cons]
            omega
        obtain ⟨ihdrop1, ihdrop2⟩ := ih _ hlen
        rw [hG]
        constructor
        · intro hinf
          rcases isInfixAppendCases hinf with h1 | h2 | ⟨x, y, hq, hx, hy, hxl, hyr⟩
          · exact hA h1
          · exact ihdrop1 h2
          · exact hx (hB x hxl ⟨y, hq.symm⟩)
        · intro x y hxy hx hy hpre hypre
          rcases prefixAppendCases hypre with h1 | ⟨y2, hy2, hy2r⟩
          · exact hy (hC y h1 ⟨x, hxy.symm⟩)
          · exact hF (isInfixTrans (prefixIsInfix ⟨y2, hy2.symm⟩)
              (suffixIsInfix ⟨x, hxy.symm⟩))
      · have hG : replaceFuel pat repl (fuel+1) (c :: rest)
            = c :: replaceFuel pat repl fuel rest := by
          simp [replaceFuel, hm]
        obtain ⟨ihr1, ihr2⟩ := ih rest hs2
        rw [hG]
        constructor
        · intro hinf
          rcases isInfixConsCases hinf with hp | hi
          · cases pat with
            | nil => exact hpat rfl
            | cons p pt =>
              obtain ⟨t, htp⟩ := hp
              simp only [List.cons_append] at htp
              obtain ⟨hpc, htail⟩ := List.cons.inj htp
              by_cases hpt : pt = []
              · subst hpt
                subst hpc
                exact hm ⟨rest, by simp⟩
              · refine ihr2 [ p ] pt rfl (by simp) hpt ?_ ⟨t, htail⟩
                subst hpc
                simpa using hm
          · exact ihr1 hi
        · intro x y hxy hx hy hpre hypre
          cases y with
          | nil => exact hy rfl
          | cons d y2 =>
            obtain ⟨t, hty⟩ := hypre
            simp only [List.cons_append] at hty
            obtain ⟨hdc, htail⟩ := List.cons.inj hty
            subst hdc
            by_cases hy2 : y2 = []
            · subst hy2
              exact hpre ⟨rest, by rw [hxy]; simp⟩
            · refine ihr2 (x ++ [ d ]) y2 ?_ (by simp) hy2 ?_ ⟨t, htail⟩
              · rw [hxy]
                simp
              · intro hcontra
                apply hpre
                rw [show (x ++ [ d ]) ++ rest = x ++ (d :: rest) by simp] at hcontra
                exact hcontra

theorem replacePreservesAbsence (pat repl q : List Char) (hpat : pat ≠ []) (hq : q ≠ [])
    (hA : ¬ q <:+: repl)
    (hB : ∀ x, x <:+ repl → x <+: q → x = [])
    (hC : ∀ y, y <+: repl → y <:+ q → y = [])
    (hF : ¬ repl <:+: q) :
    ∀ fuel s, s.length ≤ fuel → ¬ q <:+: s →
      (¬ q <:+: replaceFuel pat repl fuel s) ∧
      (∀ x y, q = x ++ y → x ≠ [] → y ≠ [] → ¬ q <:+: (x ++ s) →
        ¬ y <+: replaceFuel pat repl fuel s) := by
  intro fuel
  induction fuel with
  | zero =>
    intro s hs habs
    have hsnil : s = [] := List.length_eq_zero.mp (Nat.le_zero.mp hs)
    subst hsnil
    constructor
    · intro hinf
      exact hq (isInfixNilEq (by simpa [replaceFuel] using hinf))
    · intro x y hxy hx hy hpre hypre
      exact hy (prefixNilEq (by simpa [replaceFuel] using hypre))
  | succ fuel ih =>
    intro s hs habs
    cases s with
    | nil =>
      constructor
      · intro hinf
        exact hq (isInfixNilEq (by simpa [replaceFuel] using hinf))
      · intro x y hxy hx hy hpre hypre
        exact hy (prefixNilEq (by simpa [replaceFuel] using hypre))
    | cons c rest =>
      have hs2 : rest.length ≤ fuel := by simpa using hs
      have habs2 : ¬ q <:+: rest := fun hcontra => habs (isInfixConsOf c hcontra)
      by_cases hm : pat <+: (c :: rest)
      · have hG : replaceFuel pat repl (fuel+1) (c :: rest)
            = repl ++ replaceFuel pat repl fuel ((c :: rest).drop pat.length) := by
          simp [replaceFuel, hm]
        have hlen : ((c :: rest).drop pat.length).length ≤ fuel := by
          cases pat with
          | nil => exact absurd rfl hpat
          | cons p ps =>
            simp only [List.length_drop, List.length_cons]
            omega
        have habsdrop : ¬ q <:+: ((c :: rest).drop pat.length) := fun hcontra =>
          habs (isInfixTrans hcontra (suffixIsInfix (dropIsSuffix (c :: rest) pat.length)))
        obtain ⟨ihdrop1, ihdrop2⟩ := ih _ hlen habsdrop
        rw [hG]
        constructor
        · intro hinf
          rcases isInfixAppendCases hinf with h1 | h2 | ⟨x, y, hxy, hx, hy, hxl, hyr⟩
          · exact hA h1
          · exact ihdrop1 h2
          · exact hx (hB x hxl ⟨y, hxy.symm⟩)
        · intro x y hxy hx hy hpre hypre
          rcases prefixAppendCases hypre with h1 | ⟨y2, hy2, hy2r⟩
          · exact hy (hC y h1 ⟨x, hxy.symm⟩)
          · exact hF (isInfixTrans (prefixIsInfix ⟨y2, hy2.symm⟩)
              (suffixIsInfix ⟨x, hxy.symm⟩))
      · have hG : replaceFuel pat repl (fuel+1) (c :: rest)
            = c :: replaceFuel pat repl fuel rest := by
          simp [replaceFuel, hm]
        obtain ⟨ihr1, ihr2⟩ := ih rest hs2 habs2
        rw [hG]
        constructor
        · intro hinf
          rcases isInfixConsCases hinf with hp | hi
          · cases q with
            | nil => exact hq rfl
            | cons p pt =>
              obtain ⟨t, htp⟩ := hp
              simp only [List.cons_append] at htp
              obtain ⟨hpc, htail⟩ := List.cons.inj htp
              by_cases hpt : pt = []
              · subst hpt
                subst hpc
                exact habs (prefixIsInfix ⟨rest, by simp⟩)
              · refine ihr2 [ p ] pt rfl (by simp) hpt ?_ ⟨t, htail⟩
                subst hpc
                simpa using habs
          · exact ihr1 hi
        · intro x y hxy hx hy hpre hypre
          cases y with
          | nil => exact hy rfl
          | cons d y2 =>
            obtain ⟨t, hty⟩ := hypre
            simp only [List.cons_append] at hty
            obtain ⟨hdc, htail⟩ := List.cons.inj hty
            subst hdc
            by_cases hy2 : y2 = []
            · subst hy2
              exact hpre (prefixIsInfix ⟨rest, by rw [hxy]; simp⟩)
            · refine ihr2 (x ++ [ d ]) y2 ?_ (by simp) hy2 ?_ ⟨t, htail⟩
              · rw [hxy]
                simp
              · intro hcontra
                apply hpre
                rw [show (x ++ [ d ]) ++ rest = x ++ (d :: rest) by simp] at hcontra
                exact hcontra

theorem replaceFuelIdOfAbsent (pat repl : List Char) :
    ∀ fuel s, ¬ pat <:+: s → replaceFuel pat repl fuel s = s := by
  intro fuel
  induction fuel with
  | zero =>
    intro s habs
    cases s <;> simp [replaceFuel]
  | succ fuel ih =>
    intro s habs
    cases s with
    | nil => simp [replaceFuel]
    | cons c rest =>
      have hm : ¬ pat <+: (c :: rest) := fun hp => habs (prefixIsInfix hp)
      have habs2 : ¬ pat <:+: rest := fun hcontra => habs (isInfixConsOf c hcontra)
      simp [replaceFuel, hm, ih rest habs2]

theorem pyReplaceIdOfAbsent {pat repl s : List Char} (habs : ¬ pat <:+: s) :
    pyReplace s pat repl = s :=
  replaceFuelIdOfAbsent pat repl s.length s habs

theorem memReplaceFuel (pat repl : List Char) :
    ∀ fuel s c, c ∈ replaceFuel pat repl fuel s → c ∈ s ∨ c ∈ repl := by
  intro fuel
  induction fuel with
  | zero =>
    intro s c hc
    cases s with
    | nil => simp [replaceFuel] at hc
    | cons d rest => exact Or.inl (by simpa [replaceFuel] using hc)
  | succ fuel ih =>
    intro s c hc
    cases s with
    | nil => simp [replaceFuel] at hc
    | cons d rest =>
      by_cases hm : pat <+: (d :: rest)
      · simp only [replaceFuel, if_pos hm, List.mem_append] at hc
        rcases hc with hc | hc
        · exact Or.inr hc
        · rcases ih _ c hc with hc2 | hc2
          · exact Or.inl (List.mem_of_mem_drop hc2)
          · exact Or.inr hc2
      · simp only [replaceFuel, if_neg hm, List.mem_cons] at hc
        rcases hc with hc | hc
        · exact Or.inl (by simp [hc])
        · rcases ih rest c hc with hc2 | hc2
          · exact Or.inl (by simp [hc2])
          · exact Or.inr hc2

theorem memPyReplace {pat repl s : List Char} {c : Char} (hc : c ∈ pyReplace s pat repl) :
    c ∈ s ∨ c ∈ repl :=
  memReplaceFuel pat repl s.length s c hc

theorem notMemSplitQueryHead (s : List Char) : '?' ∉ splitQueryHead s := by
  intro hmem
  have := List.mem_takeWhile_imp hmem
  simp at this

theorem splitQueryHeadIdOfAbsent {s : List Char} (h : '?' ∉ s) : splitQueryHead s = s := by
  simp only [splitQueryHead]
  rw [List.takeWhile_eq_self_iff]
  intro x hx
  have hxq : x ≠ '?' := fun he => h (he ▸ hx)
  simpa using hxq

theorem noPostfilesAfterReplace (s : List Char) :
    ¬ (cs "postfiles") <:+: pyReplace s (cs "postfiles") (cs "blogfiles") :=
  (replaceScanSafe (cs "postfiles") (cs "blogfiles") (by decide) (by decide)
    (suffixAllOfChecks (by decide)) (prefixAllOfChecks (by decide)) (by decide)
    s.length s le_rfl).1

theorem noVideoHostAfterReplace (s : List Char) :
    ¬ (cs "https://mblogvideo-phinf.pstatic.net/") <:+:
      pyReplace s (cs "https://mblogvideo-phinf.pstatic.net/")
        (cs "https://blogfiles.pstatic.net/") :=
  (replaceScanSafe (cs "https://mblogvideo-phinf.pstatic.net/")
    (cs "https://blogfiles.pstatic.net/") (by decide) (by decide)
    (suffixAllOfChecks (by decide)) (prefixAllOfChecks (by decide)) (by decide)
    s.length s le_rfl).1

theorem noPostfilesAfterVideoReplace (s : List Char)
    (habs : ¬ (cs "postfiles") <:+: s) :
    ¬ (cs "postfiles") <:+:
      pyReplace s (cs "https://mblogvideo-phinf.pstatic.net/")
        (cs "https://blogfiles.pstatic.net/") :=
  (replacePreservesAbsence (cs "https://mblogvideo-phinf.pstatic.net/")
    (cs "https://blogfiles.pstatic.net/") (cs "postfiles") (by decide) (by decide)
    (by decide) (suffixAllOfChecks (by decide)) (prefixAllOfChecks (by decide))
    (by decide) s.length s le_rfl habs).1

theorem noQueryInOriginalImageUrl (src : List Char) :
    '?' ∉ Markdown.original_image_url src := by
  intro hmem
  simp only [Markdown.original_image_url] at hmem
  rcases memPyReplace hmem with h1 | h1
  · rcases memPyReplace h1 with h2 | h2
    · exact notMemSplitQueryHead src h2
    · revert h2
      decide
  · revert h1
    decide

theorem dictGetSetSelf {α : Type} (k : List Char) (v : α) (l : List (List Char × α)) :
    dictGet k (dictSet k v l) = some v := by
  induction l with
  | nil => simp [dictGet, dictSet]
  | cons kv rest ih =>
    obtain ⟨k2, v2⟩ := kv
    by_cases hk : k2 = k
    · simp [dictGet, dictSet, hk]
    · simp [dictGet, dictSet, hk, ih]

theorem dictGetSetOther {α : Type} {k k2 : List Char} (hne : k2 ≠ k) (v : α)
    (l : List (List Char × α)) : dictGet k2 (dictSet k v l) = dictGet k2 l := by
  induction l with
  | nil => simp [dictGet, dictSet, hne.symm]
  | cons kv rest ih =>
    obtain ⟨k3, v3⟩ := kv
    by_cases hk : k3 = k
    · subst hk
      simp [dictGet, dictSet, hne.symm]
    · simp [dictGet, dictSet, hk, ih]

theorem dropWhileAppendOfAll {p : Char → Bool} {u : List Char} (v : List Char)
    (h : ∀ x ∈ u, p x) : (u ++ v).dropWhile p = v.dropWhile p := by
  induction u with
  | nil => rfl
  | cons a u ih =>
    have ha : p a := h a (by simp)
    simp only [List.cons_append, List.dropWhile_cons, ha, if_true]
    exact ih (fun x hx => h x (by simp [hx]))

theorem dropWhileAppendOfNotAll {p : Char → Bool} {u : List Char} (v : List Char)
    (h : ∃ x ∈ u, ¬ p x) : (u ++ v).dropWhile p = u.dropWhile p ++ v := by
  induction u with
  | nil => simp at h
  | cons a u ih =>
    by_cases ha : p a
    · have h2 : ∃ x ∈ u, ¬ p x := by
        obtain ⟨x, hx, hpx⟩ := h
        rcases List.mem_cons.mp hx with hxa | hxu
        · exact absurd (hxa ▸ ha) hpx
        · exact ⟨x, hxu, hpx⟩
      simp only [List.cons_append, List.dropWhile_cons, ha, if_true]
      exact ih h2
    · simp [List.dropWhile_cons, ha]

theorem dropWhileAppendSingleton {p : Char → Bool} {c : Char} (hc : ¬ p c)
    (u : List Char) : (u ++ [ c ]).dropWhile p = u.dropWhile p ++ [ c ] := by
  by_cases hall : ∀ x ∈ u, p x
  · rw [dropWhileAppendOfAll _ hall, List.dropWhile_eq_nil_iff.mpr hall]
    simp [List.dropWhile_cons, hc]
  · push_neg at hall
    exact dropWhileAppendOfNotAll _ (by simpa using hall)

theorem pyStripAllSpace {t : List Char} (h : ∀ c ∈ t, isPySpace c) : pyStrip t = [] := by
  have h1 : pyStripLeft t = [] := by
    simp only [pyStripLeft]
    exact List.dropWhile_eq_nil_iff.mpr h
  simp [pyStrip, h1, pyStripRight]

theorem stripCommute (l : List Char) :
    pyStripLeft (pyStripRight l) = pyStripRight (pyStripLeft l) := by
  induction l with
  | nil => rfl
  | cons c t ih =>
    by_cases hc : isPySpace c
    · have hrhs : pyStripRight (pyStripLeft (c :: t)) = pyStripRight (pyStripLeft t) := by
        simp [pyStripLeft, List.dropWhile_cons, hc]
      by_cases hall : ∀ x ∈ t, isPySpace x
      · have hright : pyStripRight (c :: t) = [] := by
          simp only [pyStripRight, List.reverse_cons]
          rw [dropWhileAppendOfAll _ (by simpa using hall)]
          simp [List.dropWhile_cons, hc]
        have hleft : pyStripLeft t = [] := List.dropWhile_eq_nil_iff.mpr hall
        rw [hrhs, hright, hleft]
        rfl
      · push_neg at hall
        have hright : pyStripRight (c :: t) = c :: pyStripRight t := by
          simp only [pyStripRight, List.reverse_cons]
          rw [dropWhileAppendOfNotAll _ (by simpa using hall)]
          simp
        rw [hrhs, hright]
        simp only [pyStripLeft, List.dropWhile_cons, hc, if_true]
        exact ih
    · have hright : pyStripRight (c :: t) = c :: pyStripRight t := by
        simp only [pyStripRight, List.reverse_cons]
        rw [dropWhileAppendSingleton hc]
        simp
      have hleft1 : pyStripLeft (c :: t) = c :: t := by
        simp [pyStripLeft, List.dropWhile_cons, hc]
      have hleft2 : pyStripLeft (c :: pyStripRight t) = c :: pyStripRight t := by
        simp [pyStripLeft, List.dropWhile_cons, hc]
      rw [hright, hleft1, hleft2, hright]

theorem lazyTraceSome {α : Type} (v : α) :
    ∀ n, lazy_trace (some v) n
      = (if n = 0 then none else some v, min n 1, List.replicate n (some v)) := by
  intro n
  induction n with
  | zero => rfl
  | succ n ih =>
    simp only [lazy_trace, ih]
    cases n with
    | zero => simp [lazy_call]
    | succ m =>
      simp [lazy_call, List.replicate_succ', Nat.min_def]

theorem lazyTraceNone {α : Type} :
    ∀ n, lazy_trace (none : Option α) n = (none, n, List.replicate n none) := by
  intro n
  induction n with
  | zero => rfl
  | succ n ih =>
    simp [lazy_trace, ih, lazy_call, List.replicate_succ']

theorem asBlocksAppend (ts us : List Tag) :
    Hooks.as_blocks (ts ++ us)
      = (Hooks.as_blocks ts).bind
          (fun bs => (Hooks.as_blocks us).map (fun tl => bs ++ tl)) := by
  induction ts with
  | nil =>
    cases hus : Hooks.as_blocks us <;>
      simp [Hooks.as_blocks, hus, Except.bind, Except.map]
  | cons c ts ih =>
    simp only [List.cons_append, Hooks.as_blocks, ih]
    cases hc : Hooks.component_blocks c <;>
      cases hts : Hooks.as_blocks ts <;>
        cases hus : Hooks.as_blocks us <;>
          simp [ih, hc, hts, hus, Except.bind, Except.map, Bind.bind, pure, Except.pure]

/-- C1: rendering the block sequence SectionTitle Intro, Paragraph Hello,
Image with a query string, under the CDN-rewrite strategy and front matter
title T, returns exactly the expected Markdown text: dashed header, each
body fragment followed by a blank line, query string stripped from the
image URL, single trailing newline. -/
theorem c1_render_example (num_workers : Nat) :
    Markdown.blocks_as_markdown
      [ .sectionTitle (cs "Intro"), .paragraph (cs "Hello"),
        .image ⟨cs "http://x/a.jpg?x=1", cs "cap"⟩ ]
      (some [(cs "title", .str (cs "T"))]) [] num_workers Markdown.original_image_url
      = cs "---\ntitle: T\n---\n\n## Intro\n\nHello\n\n![cap](http://x/a.jpg)\n" := rfl

/-- C2 counterexample: on a video-CDN URL the parse-time normalization of
blog/components.py differs from the CDN-rewrite strategy of
markdown/image.py, because only the latter rewrites the video host, so the
two are not the same function. -/
theorem c2_counterexample :
    Components.original_image_url (cs "https://mblogvideo-phinf.pstatic.net/a.mp4")
      ≠ Markdown.original_image_url (cs "https://mblogvideo-phinf.pstatic.net/a.mp4") := by
  decide

/-- C2 amended: the parse-time normalization strips the query string and
rewrites the staging segment but not the video host; the CDN-rewrite
strategy is exactly that normalization followed by the video-host rewrite,
and the two agree on every URL whose normalized form does not contain the
video-CDN host prefix. -/
theorem c2_amended_theorem (url : List Char) :
    Markdown.original_image_url url
        = pyReplace (Components.original_image_url url)
            (cs "https://mblogvideo-phinf.pstatic.net/")
            (cs "https://blogfiles.pstatic.net/") ∧
    (¬ (cs "https://mblogvideo-phinf.pstatic.net/") <:+: Components.original_image_url url →
      Markdown.original_image_url url = Components.original_image_url url) := by
  constructor
  · rfl
  · intro habs
    calc Markdown.original_image_url url
        = pyReplace (Components.original_image_url url)
            (cs "https://mblogvideo-phinf.pstatic.net/")
            (cs "https://blogfiles.pstatic.net/") := rfl
      _ = Components.original_image_url url := pyReplaceIdOfAbsent habs

/-- Witness for C2 amended at a concrete staging URL with a query string. -/
theorem c2_amended_witness :
    (¬ (cs "https://mblogvideo-phinf.pstatic.net/") <:+:
        Components.original_image_url (cs "https://postfiles.pstatic.net/x/a.jpg?type=w966")) ∧
    Markdown.original_image_url (cs "https://postfiles.pstatic.net/x/a.jpg?type=w966")
      = Components.original_image_url (cs "https://postfiles.pstatic.net/x/a.jpg?type=w966") :=
  ⟨by decide, (c2_amended_theorem (cs "https://postfiles.pstatic.net/x/a.jpg?type=w966")).2
    (by decide)⟩

/-- C3 counterexample: an empty ImageGroup ahead of an Image makes preview
selection raise IndexError instead of skipping to the Image the claim
promises. -/
theorem c3_counterexample :
    Hooks.first_image_of_blocks [ .imageGroup [], .image ⟨cs "s", cs "a"⟩ ]
        = .error .indexError ∧
    Hooks.first_image_of_blocks [ .imageGroup [], .image ⟨cs "s", cs "a"⟩ ]
        ≠ .ok (some ⟨cs "s", cs "a"⟩) := by
  exact ⟨rfl, by decide⟩

/-- C3 amended: preview selection returns the first Image block, or the
first image of the first ImageGroup encountered, skipping SectionTitle and
Paragraph blocks, and returns none on exhaustion without any image-bearing
block; when that first ImageGroup is empty it fails with IndexError rather
than skipping it. -/
theorem c3_amended_theorem (blocks : List Block) :
    Hooks.first_image_of_blocks blocks
      = match blocks.find? isImageBearing with
        | none => .ok none
        | some (.image d) => .ok (some ⟨d.src, d.alt⟩)
        | some (.imageGroup []) => .error .indexError
        | some (.imageGroup (i :: _)) => .ok (some ⟨i.src, i.alt⟩)
        | some _ => .ok none := by
  induction blocks with
  | nil => rfl
  | cons b rest ih =>
    cases b with
    | sectionTitle t =>
      simpa [Hooks.first_image_of_blocks, List.find?, isImageBearing] using ih
    | paragraph t =>
      simpa [Hooks.first_image_of_blocks, List.find?, isImageBearing] using ih
    | image d => simp [Hooks.first_image_of_blocks, List.find?, isImageBearing]
    | imageGroup imgs =>
      cases imgs <;> simp [Hooks.first_image_of_blocks, List.find?, isImageBearing]

/-- C4: the CDN-rewrite image strategy is idempotent on every input
string. -/
theorem c4_cdn_rewrite_idempotent (src : List Char) :
    Markdown.original_image_url (Markdown.original_image_url src)
      = Markdown.original_image_url src := by
  have hnoq := noQueryInOriginalImageUrl src
  have hnopost : ¬ (cs "postfiles") <:+: Markdown.original_image_url src := by
    simp only [Markdown.original_image_url]
    exact noPostfilesAfterVideoReplace _ (noPostfilesAfterReplace _)
  have hnovid : ¬ (cs "https://mblogvideo-phinf.pstatic.net/") <:+:
      Markdown.original_image_url src := by
    simp only [Markdown.original_image_url]
    exact noVideoHostAfterReplace _
  have hstep : Markdown.original_image_url (Markdown.original_image_url src)
      = pyReplace
          (pyReplace (splitQueryHead (Markdown.original_image_url src))
            (cs "postfiles") (cs "blogfiles"))
          (cs "https://mblogvideo-phinf.pstatic.net/")
          (cs "https://blogfiles.pstatic.net/") := rfl
  rw [hstep, splitQueryHeadIdOfAbsent hnoq, pyReplaceIdOfAbsent hnopost,
    pyReplaceIdOfAbsent hnovid]

/-- C5 counterexample: the one-space Paragraph is whitespace-only yet its
rendered fragment is a blank line of two bytes, not the empty string. -/
theorem c5_counterexample :
    (∀ c ∈ cs " ", isPySpace c) ∧
    Markdown.block_as_markdown Markdown.identity (.paragraph (cs " ")) ≠ [] := by
  constructor
  · decide
  · decide

/-- C5 amended: a Paragraph whose text is exactly empty or exactly one
newline renders to nothing; any other whitespace-only Paragraph renders to
the bare blank-line fragment of two newline bytes. -/
theorem c5_amended_theorem (proc : List Char → List Char) (t : List Char) :
    (t = [] ∨ t = [ '\n' ] → Markdown.block_as_markdown proc (.paragraph t) = []) ∧
    ((∀ c ∈ t, isPySpace c) → t ≠ [] → t ≠ [ '\n' ] →
      Markdown.block_as_markdown proc (.paragraph t) = cs "\n\n") := by
  have harm : Markdown.block_as_markdown proc (.paragraph t)
      = if t = [] ∨ t = [ '\n' ] then [] else pyStrip t ++ cs "\n\n" := rfl
  constructor
  · intro h
    rw [harm, if_pos h]
  · intro hws h1 h2
    rw [harm, if_neg (not_or.mpr ⟨h1, h2⟩), pyStripAllSpace hws]
    rfl

/-- Witness for C5 amended at the one-space Paragraph under the pass-through
strategy. -/
theorem c5_amended_witness :
    Markdown.block_as_markdown Markdown.identity (.paragraph (cs " ")) = cs "\n\n" :=
  (c5_amended_theorem Markdown.identity (cs " ")).2 (by decide) (by decide) (by decide)

/-- C6 counterexample: a leading blank-line fragment is removed by the final
strip, so the render differs from the formula of the claim, which removes
only trailing whitespace and keeps leading whitespace. -/
theorem c6_counterexample :
    Markdown.blocks_as_markdown [ .paragraph (cs " "), .sectionTitle (cs "T") ] none []
        1 Markdown.identity
      ≠ spec_render_trailing_only [ .paragraph (cs " "), .sectionTitle (cs "T") ] none
        1 Markdown.identity := by
  decide

/-- C6 amended: the render result is the concatenation of the header (if
any) and all per-block fragments, with trailing and also leading whitespace
removed, and exactly one trailing newline appended. -/
theorem c6_amended_theorem (blocks : List Block) (front_matter : Option FrontMatter)
    (num_workers : Nat) (proc : List Char → List Char) :
    Markdown.blocks_as_markdown blocks front_matter [] num_workers proc
      = spec_render_strip_both blocks front_matter num_workers proc := by
  cases front_matter with
  | none =>
    simp only [Markdown.blocks_as_markdown, spec_render_strip_both, pyStrip]
    rw [stripCommute]
  | some fm =>
    simp only [Markdown.blocks_as_markdown, spec_render_strip_both, pyStrip, if_true]
    rw [stripCommute]

/-- C7 counterexample: on a URL whose last segment carries a plus sign the
written filename uses unquote_plus, which differs from the pure
percent-decoding of the claim. -/
theorem c7_counterexample :
    Markdown.fetch_image_processor (cs "http://x/a+b.jpg") (cs "assets") (cs "img/")
        true (fun _ => some [7])
      = .ok ⟨⟨cs "assets/a b.jpg", [7]⟩, cs "img/a b.jpg"⟩ ∧
    unquote_plus (last_path_segment (Markdown.original_image_url (cs "http://x/a+b.jpg")))
      ≠ percent_decode
          (last_path_segment (Markdown.original_image_url (cs "http://x/a+b.jpg"))) := by
  exact ⟨rfl, by decide⟩

/-- C7 amended: with the directory precondition satisfied, the fetch
strategy fetches the canonical CDN-rewritten URL, fails with
DownloadFailure on any non-success response, and otherwise writes the body
to the assets directory under the plus-and-percent-decoded (unquote_plus)
last path segment of the canonical URL and returns that filename behind the
configured prefix. -/
theorem c7_amended_theorem (src assets_directory image_src_prefix : List Char)
    (http_get : List Char → Option (List Nat)) :
    Markdown.fetch_image_processor src assets_directory image_src_prefix true http_get
      = match http_get (Markdown.original_image_url src) with
        | none => .error .downloadFailure
        | some content =>
          .ok ⟨⟨assets_directory ++ [ '/' ] ++
                  unquote_plus (last_path_segment (Markdown.original_image_url src)),
                content⟩,
              image_src_prefix ++
                unquote_plus (last_path_segment (Markdown.original_image_url src))⟩ := by
  simp only [Markdown.fetch_image_processor]
  rw [if_neg (by simp)]

/-- C8: a component whose discriminator lies outside the known set makes the
parser fail with the discriminator carried in the error, whatever components
follow, after any successfully parsed prefix. -/
theorem c8_unrecognized_component (ts : List Tag) (pre : List Block) (t : Tag)
    (rest : List Tag) (d : List Char) (ds : List (List Char))
    (h1 : Hooks.as_blocks ts = .ok pre)
    (h2 : t.classes.drop 1 = d :: ds)
    (h3 : d ∉ [cs "se-sectionTitle", cs "se-image", cs "se-imageGroup",
                cs "se-placesMap", cs "se-text", cs "se-oglink"]) :
    Hooks.as_blocks (ts ++ t :: rest) = .error (.unrecognizedComponent d) := by
  have hcb : Hooks.component_blocks t = .error (.unrecognizedComponent d) := by
    simp only [List.mem_cons, List.mem_singleton, not_or] at h3
    obtain ⟨n1, n2, n3, n4, n5, n6⟩ := h3
    simp [Hooks.component_blocks, h2, n1, n2, n3, n4, n5, n6]
  rw [asBlocksAppend, h1]
  simp [Hooks.as_blocks, hcb, Except.bind, Except.map, Bind.bind]

/-- Witness for C8: a recognized text component, then a component with
discriminator se-unknownThing, then a further component that is never
reached. -/
theorem c8_witness :
    Hooks.as_blocks
        ([ ⟨[cs "se-component", cs "se-text"], [], [], none, [⟨[], cs "hello"⟩], cs "hello"⟩ ]
          ++ (⟨[cs "se-component", cs "se-unknownThing"], [], [], none, [], []⟩ : Tag)
            :: [ ⟨[cs "se-component", cs "se-oglink"], [], [], none, [], []⟩ ])
      = .error (.unrecognizedComponent (cs "se-unknownThing")) :=
  c8_unrecognized_component
    [ ⟨[cs "se-component", cs "se-text"], [], [], none, [⟨[], cs "hello"⟩], cs "hello"⟩ ]
    [Block.paragraph (cs "hello")]
    ⟨[cs "se-component", cs "se-unknownThing"], [], [], none, [], []⟩
    [ ⟨[cs "se-component", cs "se-oglink"], [], [], none, [], []⟩ ]
    (cs "se-unknownThing") [] rfl rfl (by decide)

/-- C9 counterexample: a wrapped computation whose value is None is invoked
on every call, twice across two calls, refuting at-most-once invocation. -/
theorem c9_counterexample :
    (lazy_trace (none : Option Nat) 2).2.1 = 2 ∧
    ¬ ((lazy_trace (none : Option Nat) 2).2.1 ≤ 1) := by
  decide

/-- C9 amended: when the wrapped computation returns a non-None value the
memoizer invokes it at most once across any call sequence and every call
returns that value; when it returns None the sentinel is indistinguishable
from not-yet-computed and the computation runs again on every call. -/
theorem c9_amended_theorem {α : Type} (v : α) (n : Nat) :
    (lazy_trace (some v) n).2.1 ≤ 1 ∧
    (∀ r ∈ (lazy_trace (some v) n).2.2, r = some v) ∧
    (lazy_trace (none : Option α) n).2.1 = n := by
  refine ⟨?_, ?_, ?_⟩
  · rw [lazyTraceSome]
    exact Nat.min_le_right n 1
  · rw [lazyTraceSome]
    intro r hr
    exact List.eq_of_mem_replicate hr
  · rw [lazyTraceNone]

/-- C10: when the front matter has an image entry with a url field, the
renderer overwrites that url in the caller's mapping with the
strategy-resolved URL before serialization, and every other entry of the
outer mapping and of the image mapping is unchanged. -/
theorem c10_front_matter_url_update (proc : List Char → List Char) (fm : FrontMatter)
    (m : List (List Char × List Char)) (u : List Char)
    (h1 : dictGet (cs "image") fm = some (.nested m))
    (h2 : dictGet (cs "url") m = some u) :
    (Markdown.front_matter_as_yaml proc fm).1
        = dictSet (cs "image") (.nested (dictSet (cs "url") (proc u) m)) fm ∧
    dictGet (cs "image") (Markdown.front_matter_as_yaml proc fm).1
        = some (.nested (dictSet (cs "url") (proc u) m)) ∧
    (∀ k, k ≠ cs "image" →
      dictGet k (Markdown.front_matter_as_yaml proc fm).1 = dictGet k fm) ∧
    dictGet (cs "url") (dictSet (cs "url") (proc u) m) = some (proc u) ∧
    (∀ k2, k2 ≠ cs "url" →
      dictGet k2 (dictSet (cs "url") (proc u) m) = dictGet k2 m) := by
  have hfm : (Markdown.front_matter_as_yaml proc fm).1
      = dictSet (cs "image") (.nested (dictSet (cs "url") (proc u) m)) fm := by
    simp [Markdown.front_matter_as_yaml, h1, h2]
  refine ⟨hfm, ?_, ?_, ?_, ?_⟩
  · rw [hfm]
    exact dictGetSetSelf _ _ _
  · intro k hk
    rw [hfm]
    exact dictGetSetOther hk _ _
  · exact dictGetSetSelf _ _ _
  · intro k2 hk2
    exact dictGetSetOther hk2 _ _

/-- Witness for C10 at a concrete front matter with a title and an image
mapping, under a strategy that rewrites every URL to the string X. -/
theorem c10_witness :
    dictGet (cs "image")
        (Markdown.front_matter_as_yaml (fun _ => cs "X")
          [(cs "title", .str (cs "T")),
           (cs "image", .nested [(cs "url", cs "u"), (cs "alt", cs "a")])]).1
      = some (.nested [(cs "url", cs "X"), (cs "alt", cs "a")]) ∧
    dictGet (cs "title")
        (Markdown.front_matter_as_yaml (fun _ => cs "X")
          [(cs "title", .str (cs "T")),
           (cs "image", .nested [(cs "url", cs "u"), (cs "alt", cs "a")])]).1
      = some (.str (cs "T")) := by
  have h := c10_front_matter_url_update (fun _ => cs "X")
    [(cs "title", .str (cs "T")),
     (cs "image", .nested [(cs "url", cs "u"), (cs "alt", cs "a")])]
    [(cs "url", cs "u"), (cs "alt", cs "a")] (cs "u") rfl rfl
  refine ⟨?_, ?_⟩
  · rw [h.2.1]
    rfl
  · rw [h.2.2.1 (cs "title") (by decide)]
    rfl
